import Mathlib

/-! # misaki-utils: vectors, 3x3 matrices and 2D bounding boxes

A shallow embedding of `include/misaki/utils/math/{vec2,bbox2,matrix3}.hpp`.
The C++ templates are generic over the scalar type `Value`; the Lean
definitions are generic over `Value` as well and ask only for the operations
the C++ body uses (`<`, `+`, `-`, `*`, `/`, the literals `0` and `1`).
Library constants that depend on the scalar type
(`std::numeric_limits<Value>::infinity()`, the conversion `Value(.5f)`) are
taken from small type classes, one instance per scalar type.
-/

namespace misaki.math

/-! ## Scalars -/

/-- The function `std::min(a, b)`: returns `b` when `b < a`, otherwise `a`. -/
def std_min {Value : Type} [LT Value] [DecidableRel (fun a b : Value => a < b)]
    (a b : Value) : Value :=
  if b < a then b else a

/-- The function `std::max(a, b)`: returns `b` when `a < b`, otherwise `a`. -/
def std_max {Value : Type} [LT Value] [DecidableRel (fun a b : Value => a < b)]
    (a b : Value) : Value :=
  if a < b then b else a

/-- The constant `std::numeric_limits<Value>::infinity()` of a scalar type. -/
class NumericLimits (Value : Type) where
  /-- The value returned by `std::numeric_limits<Value>::infinity()`. -/
  infinity : Value

/-- The conversion `Value(.5f)` of the float literal one half to a scalar type. -/
class FromFloat (Value : Type) where
  /-- The value of the expression `Value(.5f)`. -/
  half : Value

/-- A floating scalar in exact arithmetic: a rational number or one of the two
infinities. There is no NaN. -/
inductive ExtRat where
  | negInf : ExtRat
  | fin (q : ℚ) : ExtRat
  | posInf : ExtRat
  deriving DecidableEq

namespace ExtRat

/-- The order of the extended rationals: `negInf` below and `posInf` above every value. -/
def le : ExtRat → ExtRat → Prop
  | negInf, _ => True
  | fin _, negInf => False
  | fin a, fin b => a ≤ b
  | fin _, posInf => True
  | posInf, posInf => True
  | posInf, _ => False

instance decLe : DecidableRel le := fun a b =>
  match a, b with
  | negInf, negInf => isTrue trivial
  | negInf, fin _ => isTrue trivial
  | negInf, posInf => isTrue trivial
  | fin _, negInf => isFalse not_false
  | fin a, fin b => inferInstanceAs (Decidable (a ≤ b))
  | fin _, posInf => isTrue trivial
  | posInf, posInf => isTrue trivial
  | posInf, negInf => isFalse not_false
  | posInf, fin _ => isFalse not_false

instance : LinearOrder ExtRat where
  le := le
  le_refl a := by cases a <;> simp [le]
  le_trans a b c := by
    cases a <;> cases b <;> cases c <;> simp [le]
    exact fun h1 h2 => le_trans h1 h2
  le_antisymm a b := by
    cases a <;> cases b <;> simp [le]
    exact fun h1 h2 => le_antisymm h1 h2
  le_total a b := by
    cases a <;> cases b <;> simp [le]
    exact le_total _ _
  decidableLE := decLe

/-- Unary minus: swaps the infinities and negates a finite value. -/
instance : Neg ExtRat where
  neg
    | negInf => posInf
    | fin q => fin (-q)
    | posInf => negInf

instance : NumericLimits ExtRat where
  infinity := posInf

end ExtRat

/-- For the exact model of a floating scalar, `Value(.5f)` is one half. -/
instance : FromFloat ℚ where
  half := 1 / 2

/-! ## `TVector2` (vec2.hpp) -/

/-- The class `TVector2<Value>`: the two public members `x` and `y`. -/
structure TVector2 (Value : Type) where
  x : Value
  y : Value
  deriving DecidableEq

namespace TVector2

variable {Value : Type}

/-- The constructor `TVector2(Value x)`: both components are `x`. -/
def ofValue (x : Value) : TVector2 Value := ⟨x, x⟩

/-- The `operator[](size_t idx)`, for the two valid indices. -/
def get (v : TVector2 Value) (idx : Fin 2) : Value :=
  match idx with
  | 0 => v.x
  | 1 => v.y

/-- The `operator+(TVector2, TVector2)`. -/
instance [Add Value] : Add (TVector2 Value) where
  add lhs rhs := ⟨lhs.x + rhs.x, lhs.y + rhs.y⟩

/-- The `operator*(TVector2, T rhs)` with a scalar right operand. -/
instance [Mul Value] : HMul (TVector2 Value) Value (TVector2 Value) where
  hMul lhs rhs := ⟨lhs.x * rhs, lhs.y * rhs⟩

end TVector2

/-- Modelled from the spec: `cwise_min` is called by bbox2.hpp and declared in no
available source file; the spec reads it as the component-wise minimum, which is
what the function `min` of vec2.hpp computes with `std::min`. -/
def cwise_min {Value : Type} [LT Value] [DecidableRel (fun a b : Value => a < b)]
    (lhs rhs : TVector2 Value) : TVector2 Value :=
  ⟨std_min lhs.x rhs.x, std_min lhs.y rhs.y⟩

/-- Modelled from the spec: `cwise_max` is called by bbox2.hpp and declared in no
available source file; the spec reads it as the component-wise maximum, which is
what the function `max` of vec2.hpp computes with `std::max`. -/
def cwise_max {Value : Type} [LT Value] [DecidableRel (fun a b : Value => a < b)]
    (lhs rhs : TVector2 Value) : TVector2 Value :=
  ⟨std_max lhs.x rhs.x, std_max lhs.y rhs.y⟩

/-! ## `TBoundingBox2` (bbox2.hpp) -/

/-- The struct `TBoundingBox2<Value>`: the two corners `pmin` and `pmax`. -/
structure TBoundingBox2 (Value : Type) where
  pmin : TVector2 Value
  pmax : TVector2 Value
  deriving DecidableEq

namespace TBoundingBox2

variable {Value : Type}

/-- The method `reset()`: it overwrites both corners, so the result does not
depend on the receiver; `pmin = infinity()` and `pmax = -infinity()` go through
the one-scalar constructor of `TVector2`. The default constructor
`TBoundingBox2()` calls it. -/
def reset [NumericLimits Value] [Neg Value] : TBoundingBox2 Value :=
  ⟨TVector2.ofValue NumericLimits.infinity, TVector2.ofValue (-NumericLimits.infinity)⟩

/-- The constructor `TBoundingBox2(const PointType &p)`. -/
def ofPoint (p : TVector2 Value) : TBoundingBox2 Value := ⟨p, p⟩

section Order

variable [LT Value] [DecidableRel (fun a b : Value => a < b)]

/-- The method `clip(bbox)`, for an argument box over the same scalar type. -/
def clip (self bbox : TBoundingBox2 Value) : TBoundingBox2 Value :=
  ⟨cwise_max self.pmin bbox.pmin, cwise_min self.pmax bbox.pmax⟩

/-- The method `expand(p)` for a point over the same scalar type. -/
def expand (self : TBoundingBox2 Value) (p : TVector2 Value) : TBoundingBox2 Value :=
  ⟨cwise_min self.pmin p, cwise_max self.pmax p⟩

/-- The method `expand(bbox)` for a box over the same scalar type. -/
def expandBox (self bbox : TBoundingBox2 Value) : TBoundingBox2 Value :=
  ⟨cwise_min self.pmin bbox.pmin, cwise_max self.pmax bbox.pmax⟩

end Order

/-- The method `center()`. -/
def center [Add Value] [Mul Value] [FromFloat Value] (self : TBoundingBox2 Value) :
    TVector2 Value :=
  (self.pmin + self.pmax) * (FromFloat.half : Value)

end TBoundingBox2

/-! ## Sequences of mutator calls -/

/-- The calls `expand(p)` for the points of a list, in order, on the box `self`. -/
def expandAll {Value : Type} [LT Value] [DecidableRel (fun a b : Value => a < b)]
    (self : TBoundingBox2 Value) (ps : List (TVector2 Value)) : TBoundingBox2 Value :=
  ps.foldl TBoundingBox2.expand self

/-- One call of a mutator of `TBoundingBox2` with its argument. -/
inductive Mutator (Value : Type) where
  | expandPoint (p : TVector2 Value) : Mutator Value
  | expandBox (bbox : TBoundingBox2 Value) : Mutator Value
  | clip (bbox : TBoundingBox2 Value) : Mutator Value

namespace Mutator

variable {Value : Type}

/-- The call is one of the two overloads of `expand`. -/
def isExpand : Mutator Value → Bool
  | expandPoint _ => true
  | expandBox _ => true
  | clip _ => false

/-- The call is a `clip`. -/
def isClip : Mutator Value → Bool
  | clip _ => true
  | _ => false

/-- The receiver after the call. -/
def apply [LT Value] [DecidableRel (fun a b : Value => a < b)]
    (self : TBoundingBox2 Value) : Mutator Value → TBoundingBox2 Value
  | expandPoint p => self.expand p
  | expandBox bbox => self.expandBox bbox
  | clip bbox => self.clip bbox

end Mutator

/-- The receiver after a sequence of mutator calls, made in the order of the list. -/
def runCalls {Value : Type} [LT Value] [DecidableRel (fun a b : Value => a < b)]
    (self : TBoundingBox2 Value) (calls : List (Mutator Value)) : TBoundingBox2 Value :=
  calls.foldl Mutator.apply self

/-- Specification predicate: the point `p` lies in the closed region between the
corners of `b`. -/
def TBoundingBox2.contains {Value : Type} [LE Value] (b : TBoundingBox2 Value)
    (p : TVector2 Value) : Prop :=
  b.pmin.x ≤ p.x ∧ p.x ≤ b.pmax.x ∧ b.pmin.y ≤ p.y ∧ p.y ≤ b.pmax.y

/-- Specification predicate: `pmin <= pmax` on both axes. -/
def TBoundingBox2.valid {Value : Type} [LE Value] (b : TBoundingBox2 Value) : Prop :=
  b.pmin.x ≤ b.pmax.x ∧ b.pmin.y ≤ b.pmax.y

/-! ## `TVector3` (vec3.hpp, not among the available sources) -/

/-- Modelled from the spec: the class `TVector3<Value>` of vec3.hpp, which
matrix3.hpp includes and which is not among the available sources. The spec
describes it as the three-component sibling of `TVector2`; matrix3.hpp reads its
members `x`, `y`, `z`. -/
structure TVector3 (Value : Type) where
  x : Value
  y : Value
  z : Value
  deriving DecidableEq

namespace TVector3

variable {Value : Type}

/-- Modelled from the spec: the one-scalar constructor `TVector3(Value x)` of the
missing vec3.hpp, all components equal to `x` as in `TVector2(Value x)`; the call
`Self::diag(1)` of matrix3.hpp converts its argument with it. -/
def ofValue (x : Value) : TVector3 Value := ⟨x, x, x⟩

/-- Modelled from the spec: the read `operator[](size_t idx)` of the missing
vec3.hpp, for the three valid indices. -/
def get (v : TVector3 Value) (idx : Fin 3) : Value :=
  match idx with
  | 0 => v.x
  | 1 => v.y
  | 2 => v.z

/-- Modelled from the spec: a write through the reference returned by
`operator[](size_t idx)` of the missing vec3.hpp, for the three valid indices. -/
def set (v : TVector3 Value) (idx : Fin 3) (val : Value) : TVector3 Value :=
  match idx with
  | 0 => { v with x := val }
  | 1 => { v with y := val }
  | 2 => { v with z := val }

/-- Modelled from the spec: the free function `dot` on `TVector3` of the missing
vec3.hpp, the sum of the products of the components as `dot` of vec2.hpp. -/
def dot [Add Value] [Mul Value] (lhs rhs : TVector3 Value) : Value :=
  lhs.x * rhs.x + lhs.y * rhs.y + lhs.z * rhs.z

end TVector3

/-! ## `TMatrix3` (matrix3.hpp) -/

/-- The struct `TMatrix3<Value>`; the member `Row data[3]` is kept as the three
rows `data[0]`, `data[1]`, `data[2]`. -/
structure TMatrix3 (Value : Type) where
  data0 : TVector3 Value
  data1 : TVector3 Value
  data2 : TVector3 Value
  deriving DecidableEq

namespace TMatrix3

variable {Value : Type}

/-- The constructor from nine scalars in row-major order. -/
def ofScalars (m00 m01 m02 m10 m11 m12 m20 m21 m22 : Value) : TMatrix3 Value :=
  ⟨⟨m00, m01, m02⟩, ⟨m10, m11, m12⟩, ⟨m20, m21, m22⟩⟩

/-- The named constructor `from_rows`. -/
def from_rows (r0 r1 r2 : TVector3 Value) : TMatrix3 Value := ⟨r0, r1, r2⟩

/-- The named constructor `from_cols`. -/
def from_cols (c0 c1 c2 : TVector3 Value) : TMatrix3 Value :=
  ofScalars c0.x c1.x c2.x
            c0.y c1.y c2.y
            c0.z c1.z c2.z

/-- The named constructor `constant`. -/
def constant (val : Value) : TMatrix3 Value :=
  ofScalars val val val
            val val val
            val val val

/-- The named constructor `diag`. -/
def diag [Zero Value] (vec : TVector3 Value) : TMatrix3 Value :=
  ofScalars vec.x 0 0
            0 vec.y 0
            0 0 vec.z

/-- The named constructor `zeros`. -/
def zeros [Zero Value] : TMatrix3 Value := constant 0

/-- The named constructor `ones`. -/
def ones [Zero Value] : TMatrix3 Value := constant 0

/-- The named constructor `identity`: `Self::diag(1)`, the argument converted to a
row by the one-scalar constructor. The default constructor `TMatrix3()` copies it. -/
def identity [Zero Value] [One Value] : TMatrix3 Value := diag (TVector3.ofValue 1)

/-- The `operator[](size_t idx)` and the method `row(idx)`, for the three valid
indices: the row `data[idx]`. -/
def row (m : TMatrix3 Value) (idx : Fin 3) : TVector3 Value :=
  match idx with
  | 0 => m.data0
  | 1 => m.data1
  | 2 => m.data2

/-- The read `operator()(row, col)`: `data[row][col]`. -/
def get (m : TMatrix3 Value) (r c : Fin 3) : Value := (m.row r).get c

/-- A write `m(row, col) = val` through the reference returned by
`operator()(row, col)`. -/
def set (m : TMatrix3 Value) (r c : Fin 3) (val : Value) : TMatrix3 Value :=
  match r with
  | 0 => { m with data0 := m.data0.set c val }
  | 1 => { m with data1 := m.data1.set c val }
  | 2 => { m with data2 := m.data2.set c val }

/-- The method `col(idx)`. -/
def col (m : TMatrix3 Value) (idx : Fin 3) : TVector3 Value :=
  ⟨(m.row 0).get idx, (m.row 1).get idx, (m.row 2).get idx⟩

/-- The method `determinant()`. -/
def determinant [Add Value] [Sub Value] [Mul Value] (m : TMatrix3 Value) : Value :=
  m.get 0 0 * (m.get 1 1 * m.get 2 2 - m.get 2 1 * m.get 1 2) -
  m.get 1 0 * (m.get 0 1 * m.get 2 2 - m.get 2 1 * m.get 0 2) +
  m.get 2 0 * (m.get 0 1 * m.get 1 2 - m.get 1 1 * m.get 0 2)

/-- The method `transpose()`. -/
def transpose (m : TMatrix3 Value) : TMatrix3 Value :=
  from_cols (m.row 0) (m.row 1) (m.row 2)

/-- The two nested loops of `operator*(TMatrix3, TMatrix3)`, run on the local
`ret`: for `r = 0, 1, 2` and `c = 0, 1, 2`, `ret(r, c) = dot(lhs.row(r), rhs.col(c))`. -/
def mulLoop [Add Value] [Mul Value] (lhs rhs ret : TMatrix3 Value) : TMatrix3 Value :=
  ([0, 1, 2] : List (Fin 3)).foldl
    (fun ret r => ([0, 1, 2] : List (Fin 3)).foldl
      (fun ret c => ret.set r c (TVector3.dot (lhs.row r) (rhs.col c))) ret)
    ret

/-- The `operator*(TMatrix3, TMatrix3)`: `ret` is default-constructed, hence the
identity, then filled by the loops. -/
def mul [Add Value] [Mul Value] [Zero Value] [One Value] (lhs rhs : TMatrix3 Value) :
    TMatrix3 Value :=
  mulLoop lhs rhs identity

instance [Add Value] [Mul Value] [Zero Value] [One Value] : Mul (TMatrix3 Value) where
  mul := mul

/-- Specification view: the matrix as a Mathlib matrix, entry `(i, j)` being
`m(i, j)`. -/
def toMatrix (m : TMatrix3 Value) : Matrix (Fin 3) (Fin 3) Value :=
  Matrix.of fun i j => m.get i j

end TMatrix3

/-! ## `TMatrix3` (matrix3.hpp): scalar product, inverse, comparisons -/

/-- Modelled from the spec: the `operator*(TVector3, T rhs)` of the missing
vec3.hpp with a scalar right operand, the broadcast product as
`operator*(TVector2, T rhs)` of vec2.hpp. -/
instance {Value : Type} [Mul Value] : HMul (TVector3 Value) Value (TVector3 Value) where
  hMul lhs rhs := ⟨lhs.x * rhs, lhs.y * rhs, lhs.z * rhs⟩

namespace TMatrix3

variable {Value : Type}

/-- The `operator*(TMatrix3, Value rhs)`. -/
def mulScalar [Mul Value] (lhs : TMatrix3 Value) (rhs : Value) : TMatrix3 Value :=
  ⟨lhs.row 0 * rhs, lhs.row 1 * rhs, lhs.row 2 * rhs⟩

/-- The `operator*(Value lhs, TMatrix3 rhs)`: it returns `rhs * lhs`. -/
def scalarMul [Mul Value] (lhs : Value) (rhs : TMatrix3 Value) : TMatrix3 Value :=
  mulScalar rhs lhs

/-- The method `inverse()`; `Value(1.0)` is the scalar one. -/
def inverse [Add Value] [Sub Value] [Mul Value] [Div Value] [One Value]
    (m : TMatrix3 Value) : TMatrix3 Value :=
  let det : Value := m.determinant
  scalarMul ((1 : Value) / det)
    ⟨⟨m.get 1 1 * m.get 2 2 - m.get 2 1 * m.get 1 2,
      m.get 2 1 * m.get 0 2 - m.get 0 1 * m.get 2 2,
      m.get 0 1 * m.get 1 2 - m.get 1 1 * m.get 0 2⟩,
     ⟨m.get 2 0 * m.get 1 2 - m.get 1 0 * m.get 2 2,
      m.get 0 0 * m.get 2 2 - m.get 2 0 * m.get 0 2,
      m.get 1 0 * m.get 0 2 - m.get 0 0 * m.get 1 2⟩,
     ⟨m.get 1 0 * m.get 2 1 - m.get 2 0 * m.get 1 1,
      m.get 2 0 * m.get 0 1 - m.get 0 0 * m.get 2 1,
      m.get 0 0 * m.get 1 1 - m.get 1 0 * m.get 0 1⟩⟩

/-- The inner loop `for (int j = 0; j < 3; ++j)` of the comparison operators, on
the remaining values of `j`: `some r` when the body returns `r` at some `j`,
`none` when the loop runs to its end. -/
def loopInner (body : Fin 3 → Option Bool) : List (Fin 3) → Option Bool
  | [] => none
  | j :: js =>
    match body j with
    | some r => some r
    | none => loopInner body js

/-- The outer loop `for (int i = 0; i < 3; ++i)` of the comparison operators, on
the remaining values of `i`, followed by the `return` after the loops. -/
def loopOuter (body : Fin 3 → Fin 3 → Option Bool) (after : Bool) : List (Fin 3) → Bool
  | [] => after
  | i :: is =>
    match loopInner (body i) [0, 1, 2] with
    | some r => r
    | none => loopOuter body after is

/-- The `operator==`: `false` at the first `data[i][j] != m.data[i][j]`, else `true`. -/
def op_eq [DecidableEq Value] (self m : TMatrix3 Value) : Bool :=
  loopOuter (fun i j => if self.get i j ≠ m.get i j then some false else none) true [0, 1, 2]

/-- The `operator!=`: `true` at the first `data[i][j] != m.data[i][j]`, else `false`. -/
def op_ne [DecidableEq Value] (self m : TMatrix3 Value) : Bool :=
  loopOuter (fun i j => if self.get i j ≠ m.get i j then some true else none) false [0, 1, 2]

/-- The `operator<`: at each `(i, j)` in turn, `true` when
`data[i][j] < m.data[i][j]`, `false` when `data[i][j] > m.data[i][j]`; `false`
after the loops. -/
def op_lt [LT Value] [DecidableRel (fun a b : Value => a < b)] (self m : TMatrix3 Value) :
    Bool :=
  loopOuter
    (fun i j =>
      if self.get i j < m.get i j then some true
      else if self.get i j > m.get i j then some false
      else none)
    false [0, 1, 2]

/-- Specification view: the element at position `k` of the nine elements read in
row-major order, `m(k / 3, k % 3)`. -/
def elem (m : TMatrix3 Value) (k : Fin 9) : Value :=
  m.get ⟨k.val / 3, by omega⟩ ⟨k.val % 3, by omega⟩

/-- Specification view: the nine elements in row-major order. -/
def toList (m : TMatrix3 Value) : List Value :=
  [m.get 0 0, m.get 0 1, m.get 0 2, m.get 1 0, m.get 1 1, m.get 1 2,
   m.get 2 0, m.get 2 1, m.get 2 2]

end TMatrix3

/-- Specification view: the lexicographic comparison of two lists, `true` when at
the first position where they differ the left element is the smaller one. -/
def lexLt {Value : Type} [LT Value] [DecidableRel (fun a b : Value => a < b)] :
    List Value → List Value → Bool
  | a :: as, b :: bs => if a < b then true else if b < a then false else lexLt as bs
  | _, _ => false


/-! ## The scalar type `int` and conversions between scalar types -/

/-- The C++ conversion of a value of the scalar type `Src` to the scalar type
`Dst`, as done by `Dst(v)`, `static_cast<Dst>(v)` or implicitly when an argument
of type `Src` is passed for a parameter of type `Dst`. -/
class ScalarCast (Src Dst : Type) where
  /-- The converted value. -/
  cast : Src → Dst

/-- A value converted to its own type is unchanged. -/
instance (Value : Type) : ScalarCast Value Value where
  cast v := v

/-- The 32-bit two's complement `int`: an integer in the range
`-2147483648 .. 2147483647`. -/
structure CInt where
  val : ℤ
  lo : -2147483648 ≤ val
  hi : val ≤ 2147483647
  deriving DecidableEq

namespace CInt

/-- The `int` with the same low 32 bits as `z`: the result of an arithmetic
operation whose exact value is `z` (an overflow wraps around). -/
def wrap (z : ℤ) : CInt :=
  ⟨(z + 2147483648) % 4294967296 - 2147483648, by omega, by omega⟩

instance (n : ℕ) : OfNat CInt n where
  ofNat := wrap n

instance : Add CInt where
  add a b := wrap (a.val + b.val)

instance : Sub CInt where
  sub a b := wrap (a.val - b.val)

instance : Mul CInt where
  mul a b := wrap (a.val * b.val)

/-- The division of `int` truncates toward zero. -/
instance : Div CInt where
  div a b := wrap (Int.tdiv a.val b.val)

instance : Neg CInt where
  neg a := wrap (-a.val)

/-- The `int` values are ordered as integers. -/
instance : LinearOrder CInt :=
  LinearOrder.lift' CInt.val (fun a b h => by cases a; cases b; cases h; rfl)

/-- The multiplication of `int` is commutative. -/
instance : CommMagma CInt where
  mul_comm a b := by
    show wrap (a.val * b.val) = wrap (b.val * a.val)
    rw [Int.mul_comm]

/-- The conversion of a floating value (in exact arithmetic, a rational) to
`int` discards the fractional part. -/
def ofFloat (q : ℚ) : CInt :=
  wrap (if 0 ≤ q then ⌊q⌋ else ⌈q⌉)

instance : ScalarCast ℚ CInt where
  cast := ofFloat

/-- In `int op float` the `int` operand is converted to the floating type. -/
instance : HAdd CInt ℚ ℚ where
  hAdd a r := (a.val : ℚ) + r

instance : HSub CInt ℚ ℚ where
  hSub a r := (a.val : ℚ) - r

instance : HMul CInt ℚ ℚ where
  hMul a r := (a.val : ℚ) * r

instance : HDiv CInt ℚ ℚ where
  hDiv a r := (a.val : ℚ) / r

/-- For `int`, which has no infinity, `std::numeric_limits<int>::infinity()` is `0`. -/
instance : NumericLimits CInt where
  infinity := 0

/-- For `int`, `Value(.5f)` converts one half to `int`. -/
instance : FromFloat CInt where
  half := ScalarCast.cast (1 / 2 : ℚ)

end CInt

/-! ## `TVector2` (vec2.hpp): arithmetic operators, `squared_norm`, `dot` -/

namespace TVector2

variable {Value : Type}

/-- The method `squared_norm()`. -/
def squared_norm [Add Value] [Mul Value] (v : TVector2 Value) : Value :=
  v.x * v.x + v.y * v.y

/-- The free function `dot`. -/
def dot [Add Value] [Mul Value] (lhs rhs : TVector2 Value) : Value :=
  lhs.x * rhs.x + lhs.y * rhs.y

/-- The `operator+=(const Self &rhs)`: the receiver after `x += rhs.x; y += rhs.y`. -/
def addAssign [Add Value] (self rhs : TVector2 Value) : TVector2 Value :=
  let s1 := { self with x := self.x + rhs.x }
  { s1 with y := s1.y + rhs.y }

/-- The `operator-=(const Self &rhs)`: the receiver after `x -= rhs.x; y -= rhs.y`. -/
def subAssign [Sub Value] (self rhs : TVector2 Value) : TVector2 Value :=
  let s1 := { self with x := self.x - rhs.x }
  { s1 with y := s1.y - rhs.y }

/-- The `operator*=(const Self &rhs)`: the receiver after `x *= rhs.x; y *= rhs.y`. -/
def mulAssign [Mul Value] (self rhs : TVector2 Value) : TVector2 Value :=
  let s1 := { self with x := self.x * rhs.x }
  { s1 with y := s1.y * rhs.y }

/-- The `operator/=(const Self &rhs)`: the receiver after `x /= rhs.x; y /= rhs.y`. -/
def divAssign [Div Value] (self rhs : TVector2 Value) : TVector2 Value :=
  let s1 := { self with x := self.x / rhs.x }
  { s1 with y := s1.y / rhs.y }

/-- The `operator+=(Value rhs)`: the receiver after `x += rhs; y += rhs`. -/
def addAssignScalar [Add Value] (self : TVector2 Value) (rhs : Value) : TVector2 Value :=
  let s1 := { self with x := self.x + rhs }
  { s1 with y := s1.y + rhs }

/-- The `operator-=(Value rhs)`: the receiver after `x -= rhs; y -= rhs`. -/
def subAssignScalar [Sub Value] (self : TVector2 Value) (rhs : Value) : TVector2 Value :=
  let s1 := { self with x := self.x - rhs }
  { s1 with y := s1.y - rhs }

/-- The `operator*=(Value rhs)`: the receiver after `x *= rhs; y *= rhs`. -/
def mulAssignScalar [Mul Value] (self : TVector2 Value) (rhs : Value) : TVector2 Value :=
  let s1 := { self with x := self.x * rhs }
  { s1 with y := s1.y * rhs }

/-- The `operator/=(Value rhs)`: the receiver after `x /= rhs; y /= rhs`. -/
def divAssignScalar [Div Value] (self : TVector2 Value) (rhs : Value) : TVector2 Value :=
  let s1 := { self with x := self.x / rhs }
  { s1 with y := s1.y / rhs }

/-- The `operator-(TVector2, TVector2)`. -/
instance [Sub Value] : Sub (TVector2 Value) where
  sub lhs rhs := ⟨lhs.x - rhs.x, lhs.y - rhs.y⟩

/-- The `operator*(TVector2, TVector2)`. -/
instance [Mul Value] : Mul (TVector2 Value) where
  mul lhs rhs := ⟨lhs.x * rhs.x, lhs.y * rhs.y⟩

/-- The `operator/(TVector2, TVector2)`. -/
instance [Div Value] : Div (TVector2 Value) where
  div lhs rhs := ⟨lhs.x / rhs.x, lhs.y / rhs.y⟩

section MixedScalar

variable {T C : Type}

/-- The `operator+(TVector2<Value>, T rhs)` for an arithmetic type `T`:
`lhs.x + rhs` is computed in the common type `C` of `Value` and `T`, and the
constructor `TVector2<Value>(x, y)` converts it to `Value`. -/
def addScalar [HAdd Value T C] [ScalarCast C Value] (lhs : TVector2 Value) (rhs : T) :
    TVector2 Value :=
  ⟨ScalarCast.cast (lhs.x + rhs), ScalarCast.cast (lhs.y + rhs)⟩

/-- The `operator-(TVector2<Value>, T rhs)` for an arithmetic type `T`. -/
def subScalar [HSub Value T C] [ScalarCast C Value] (lhs : TVector2 Value) (rhs : T) :
    TVector2 Value :=
  ⟨ScalarCast.cast (lhs.x - rhs), ScalarCast.cast (lhs.y - rhs)⟩

/-- The `operator*(TVector2<Value>, T rhs)` for an arithmetic type `T`. -/
def mulScalar [HMul Value T C] [ScalarCast C Value] (lhs : TVector2 Value) (rhs : T) :
    TVector2 Value :=
  ⟨ScalarCast.cast (lhs.x * rhs), ScalarCast.cast (lhs.y * rhs)⟩

/-- The `operator/(TVector2<Value>, T rhs)` for an arithmetic type `T`. -/
def divScalar [HDiv Value T C] [ScalarCast C Value] (lhs : TVector2 Value) (rhs : T) :
    TVector2 Value :=
  ⟨ScalarCast.cast (lhs.x / rhs), ScalarCast.cast (lhs.y / rhs)⟩

end MixedScalar

end TVector2


/-! ## Lemmas on scalars -/

section ScalarLemmas

variable {Value : Type} [LinearOrder Value]

theorem std_min_eq_min (a b : Value) : std_min a b = min a b := by
  unfold std_min
  split
  · next h => exact (min_eq_right h.le).symm
  · next h => exact (min_eq_left (not_lt.mp h)).symm

theorem std_max_eq_max (a b : Value) : std_max a b = max a b := by
  unfold std_max
  split
  · next h => exact (max_eq_right h.le).symm
  · next h => exact (max_eq_left (not_lt.mp h)).symm

end ScalarLemmas

namespace ExtRat

theorem le_posInf (a : ExtRat) : a ≤ posInf := by
  cases a <;> exact trivial

theorem negInf_le (a : ExtRat) : negInf ≤ a := by
  cases a <;> exact trivial

theorem le_infinity (a : ExtRat) : a ≤ NumericLimits.infinity := le_posInf a

theorem neg_infinity_le (a : ExtRat) : -NumericLimits.infinity ≤ a := negInf_le a

end ExtRat

section BoxLemmas

variable {Value : Type} [LinearOrder Value]

theorem foldl_min_isLeast {β : Type} (f : β → Value) (l : List β) (a : Value) :
    IsLeast {v | v = a ∨ ∃ q ∈ l, f q = v} (l.foldl (fun m q => min m (f q)) a) := by
  induction l generalizing a with
  | nil => exact ⟨Or.inl rfl, fun v hv => by rcases hv with rfl | ⟨q, hq, _⟩ <;> simp_all⟩
  | cons b l ih =>
    obtain ⟨hmem, hlb⟩ := ih (min a (f b))
    refine ⟨?_, ?_⟩
    · rcases hmem with h | ⟨q, hq, hqv⟩
      · rcases min_choice a (f b) with h2 | h2
        · exact Or.inl (by simpa [h2] using h)
        · exact Or.inr ⟨b, List.mem_cons_self _ _, by simpa [h2] using h.symm⟩
      · exact Or.inr ⟨q, List.mem_cons_of_mem _ hq, hqv⟩
    · intro v hv
      rcases hv with rfl | ⟨q, hq, rfl⟩
      · exact le_trans (hlb (Or.inl rfl)) (min_le_left _ _)
      · rcases List.mem_cons.mp hq with rfl | hq
        · exact le_trans (hlb (Or.inl rfl)) (min_le_right _ _)
        · exact hlb (Or.inr ⟨q, hq, rfl⟩)

theorem foldl_max_isGreatest {β : Type} (f : β → Value) (l : List β) (a : Value) :
    IsGreatest {v | v = a ∨ ∃ q ∈ l, f q = v} (l.foldl (fun m q => max m (f q)) a) := by
  induction l generalizing a with
  | nil => exact ⟨Or.inl rfl, fun v hv => by rcases hv with rfl | ⟨q, hq, _⟩ <;> simp_all⟩
  | cons b l ih =>
    obtain ⟨hmem, hub⟩ := ih (max a (f b))
    refine ⟨?_, ?_⟩
    · rcases hmem with h | ⟨q, hq, hqv⟩
      · rcases max_choice a (f b) with h2 | h2
        · exact Or.inl (by simpa [h2] using h)
        · exact Or.inr ⟨b, List.mem_cons_self _ _, by simpa [h2] using h.symm⟩
      · exact Or.inr ⟨q, List.mem_cons_of_mem _ hq, hqv⟩
    · intro v hv
      rcases hv with rfl | ⟨q, hq, rfl⟩
      · exact le_trans (le_max_left _ _) (hub (Or.inl rfl))
      · rcases List.mem_cons.mp hq with rfl | hq
        · exact le_trans (le_max_right _ _) (hub (Or.inl rfl))
        · exact hub (Or.inr ⟨q, hq, rfl⟩)

theorem expandAll_pmin_x (s : TBoundingBox2 Value) (ps : List (TVector2 Value)) :
    (expandAll s ps).pmin.x = ps.foldl (fun m q => min m q.x) s.pmin.x := by
  unfold expandAll
  induction ps generalizing s with
  | nil => rfl
  | cons p ps ih =>
    rw [List.foldl_cons, ih, List.foldl_cons]
    simp [TBoundingBox2.expand, cwise_min, std_min_eq_min]

theorem expandAll_pmin_y (s : TBoundingBox2 Value) (ps : List (TVector2 Value)) :
    (expandAll s ps).pmin.y = ps.foldl (fun m q => min m q.y) s.pmin.y := by
  unfold expandAll
  induction ps generalizing s with
  | nil => rfl
  | cons p ps ih =>
    rw [List.foldl_cons, ih, List.foldl_cons]
    simp [TBoundingBox2.expand, cwise_min, std_min_eq_min]

theorem expandAll_pmax_x (s : TBoundingBox2 Value) (ps : List (TVector2 Value)) :
    (expandAll s ps).pmax.x = ps.foldl (fun m q => max m q.x) s.pmax.x := by
  unfold expandAll
  induction ps generalizing s with
  | nil => rfl
  | cons p ps ih =>
    rw [List.foldl_cons, ih, List.foldl_cons]
    simp [TBoundingBox2.expand, cwise_max, std_max_eq_max]

theorem expandAll_pmax_y (s : TBoundingBox2 Value) (ps : List (TVector2 Value)) :
    (expandAll s ps).pmax.y = ps.foldl (fun m q => max m q.y) s.pmax.y := by
  unfold expandAll
  induction ps generalizing s with
  | nil => rfl
  | cons p ps ih =>
    rw [List.foldl_cons, ih, List.foldl_cons]
    simp [TBoundingBox2.expand, cwise_max, std_max_eq_max]

theorem expand_reset [NumericLimits Value] [Neg Value]
    (htop : ∀ v : Value, v ≤ NumericLimits.infinity)
    (hbot : ∀ v : Value, -NumericLimits.infinity ≤ v) (p : TVector2 Value) :
    (TBoundingBox2.reset : TBoundingBox2 Value).expand p = ⟨p, p⟩ := by
  simp [TBoundingBox2.expand, TBoundingBox2.reset, TVector2.ofValue, cwise_min, cwise_max,
    std_min_eq_min, std_max_eq_max, htop, hbot]

omit [LinearOrder Value] in
theorem mem_cons_set_eq {β : Type} (f : β → Value) (p : β) (ps : List β) :
    {v | v = f p ∨ ∃ q ∈ ps, f q = v} = {v | ∃ q ∈ p :: ps, f q = v} := by
  ext v
  simp only [Set.mem_setOf_eq, List.mem_cons, exists_eq_or_imp]
  exact or_congr_left eq_comm

end BoxLemmas

/-! ## The claims on `TBoundingBox2` -/

section BoxClaims

variable {Value : Type}

/-- C1. For a scalar type with a largest value `infinity()` and a smallest value
`-infinity()`: from `reset()`, after `expand(p)` for every point of a non-empty
list, each component of `pmin` is the least and each component of `pmax` the
greatest of that component over the points; one `expand(p)` from `reset()` gives
`pmin = pmax = p`. -/
theorem expandAll_reset_bounds [LinearOrder Value] [NumericLimits Value] [Neg Value]
    (htop : ∀ v : Value, v ≤ NumericLimits.infinity)
    (hbot : ∀ v : Value, -NumericLimits.infinity ≤ v)
    (p : TVector2 Value) (ps : List (TVector2 Value)) :
    (IsLeast {v | ∃ q ∈ p :: ps, q.x = v} (expandAll TBoundingBox2.reset (p :: ps)).pmin.x ∧
      IsLeast {v | ∃ q ∈ p :: ps, q.y = v} (expandAll TBoundingBox2.reset (p :: ps)).pmin.y ∧
      IsGreatest {v | ∃ q ∈ p :: ps, q.x = v} (expandAll TBoundingBox2.reset (p :: ps)).pmax.x ∧
      IsGreatest {v | ∃ q ∈ p :: ps, q.y = v} (expandAll TBoundingBox2.reset (p :: ps)).pmax.y) ∧
    (TBoundingBox2.reset : TBoundingBox2 Value).expand p = ⟨p, p⟩ := by
  have h1 : expandAll (TBoundingBox2.reset : TBoundingBox2 Value) (p :: ps)
      = expandAll ⟨p, p⟩ ps := by
    simp only [expandAll, List.foldl_cons, expand_reset htop hbot]
  refine ⟨⟨?_, ?_, ?_, ?_⟩, expand_reset htop hbot p⟩
  · rw [h1, expandAll_pmin_x, ← mem_cons_set_eq]
    exact foldl_min_isLeast (fun q : TVector2 Value => q.x) ps p.x
  · rw [h1, expandAll_pmin_y, ← mem_cons_set_eq]
    exact foldl_min_isLeast (fun q : TVector2 Value => q.y) ps p.y
  · rw [h1, expandAll_pmax_x, ← mem_cons_set_eq]
    exact foldl_max_isGreatest (fun q : TVector2 Value => q.x) ps p.x
  · rw [h1, expandAll_pmax_y, ← mem_cons_set_eq]
    exact foldl_max_isGreatest (fun q : TVector2 Value => q.y) ps p.y

end BoxClaims

section BoxClaims2

variable {Value : Type}

/-- C1, at a concrete input. Over the extended rationals, `reset()`, `expand((1,1))`,
`expand((-1,3))` gives `pmin = (-1,1)` and `pmax = (1,3)`, the least and greatest
components of the two points. -/
theorem expandAll_reset_bounds_witness :
    ((∀ v : ExtRat, v ≤ NumericLimits.infinity) ∧
      (∀ v : ExtRat, -NumericLimits.infinity ≤ v)) ∧
    expandAll (TBoundingBox2.reset : TBoundingBox2 ExtRat)
      [⟨.fin 1, .fin 1⟩, ⟨.fin (-1), .fin 3⟩] = ⟨⟨.fin (-1), .fin 1⟩, ⟨.fin 1, .fin 3⟩⟩ ∧
    IsLeast {v | ∃ q ∈ ([⟨.fin 1, .fin 1⟩, ⟨.fin (-1), .fin 3⟩] : List (TVector2 ExtRat)), q.x = v}
      (.fin (-1)) ∧
    IsGreatest {v | ∃ q ∈ ([⟨.fin 1, .fin 1⟩, ⟨.fin (-1), .fin 3⟩] : List (TVector2 ExtRat)), q.y = v}
      (.fin 3) := by
  have h := expandAll_reset_bounds ExtRat.le_infinity ExtRat.neg_infinity_le
    (⟨.fin 1, .fin 1⟩ : TVector2 ExtRat) [⟨.fin (-1), .fin 3⟩]
  have e : expandAll (TBoundingBox2.reset : TBoundingBox2 ExtRat)
      [⟨.fin 1, .fin 1⟩, ⟨.fin (-1), .fin 3⟩] = ⟨⟨.fin (-1), .fin 1⟩, ⟨.fin 1, .fin 3⟩⟩ := by
    decide
  rw [e] at h
  exact ⟨⟨ExtRat.le_infinity, ExtRat.neg_infinity_le⟩, e, h.1.1, h.1.2.2.2⟩

/-- C2 as stated fails: from `reset()`, the calls `clip([0,1]x[0,1])` then
`expand((5,5))` leave `pmin = pmax = (5,5)`, while `expand((5,5))` then
`clip([0,1]x[0,1])` leave `pmin = (5,5)`, `pmax = (1,1)`. -/
theorem runCalls_reorder_counterexample :
    ¬ ∀ l1 l2 : List (Mutator ExtRat), l1.Perm l2 →
      runCalls TBoundingBox2.reset l1 = runCalls TBoundingBox2.reset l2 := by
  intro h
  have h1 := h [.clip ⟨⟨.fin 0, .fin 0⟩, ⟨.fin 1, .fin 1⟩⟩, .expandPoint ⟨.fin 5, .fin 5⟩]
    [.expandPoint ⟨.fin 5, .fin 5⟩, .clip ⟨⟨.fin 0, .fin 0⟩, ⟨.fin 1, .fin 1⟩⟩]
    (List.Perm.swap _ _ _)
  revert h1
  decide

theorem apply_comm_of_isExpand [LinearOrder Value] (z : TBoundingBox2 Value) (m1 m2 : Mutator Value)
    (h1 : m1.isExpand = true) (h2 : m2.isExpand = true) :
    Mutator.apply (Mutator.apply z m1) m2 = Mutator.apply (Mutator.apply z m2) m1 := by
  cases m1 <;> cases m2 <;> simp [Mutator.isExpand] at h1 h2 <;>
    simp [Mutator.apply, TBoundingBox2.expand, TBoundingBox2.expandBox, cwise_min, cwise_max,
      std_min_eq_min, std_max_eq_max, inf_right_comm, sup_right_comm]

theorem apply_comm_of_isClip [LinearOrder Value] (z : TBoundingBox2 Value) (m1 m2 : Mutator Value)
    (h1 : m1.isClip = true) (h2 : m2.isClip = true) :
    Mutator.apply (Mutator.apply z m1) m2 = Mutator.apply (Mutator.apply z m2) m1 := by
  cases m1 <;> cases m2 <;> simp [Mutator.isClip] at h1 h2
  simp [Mutator.apply, TBoundingBox2.clip, cwise_min, cwise_max,
    std_min_eq_min, std_max_eq_max, inf_right_comm, sup_right_comm]

/-- C2, amended. Over a totally ordered scalar, from any starting box (the
`reset()` box included), a sequence of calls that are all `expand` (of a point or
of a box) or all `clip` leaves the same box under every reordering. -/
theorem runCalls_perm_same_kind [LinearOrder Value] (s : TBoundingBox2 Value)
    (l1 l2 : List (Mutator Value)) (hp : l1.Perm l2)
    (hk : (∀ m ∈ l1, m.isExpand = true) ∨ (∀ m ∈ l1, m.isClip = true)) :
    runCalls s l1 = runCalls s l2 := by
  unfold runCalls
  rcases hk with hk | hk
  · exact hp.foldl_eq' (fun x hx y hy z => apply_comm_of_isExpand z x y (hk x hx) (hk y hy)) s
  · exact hp.foldl_eq' (fun x hx y hy z => apply_comm_of_isClip z x y (hk x hx) (hk y hy)) s

/-- C2 amended, at a concrete input: from `reset()`, `expand((5,5))` and
`expand([0,1]x[0,1])` in either order. -/
theorem runCalls_perm_same_kind_witness :
    runCalls (TBoundingBox2.reset : TBoundingBox2 ExtRat)
        [.expandPoint ⟨.fin 5, .fin 5⟩, .expandBox ⟨⟨.fin 0, .fin 0⟩, ⟨.fin 1, .fin 1⟩⟩]
      = runCalls TBoundingBox2.reset
        [.expandBox ⟨⟨.fin 0, .fin 0⟩, ⟨.fin 1, .fin 1⟩⟩, .expandPoint ⟨.fin 5, .fin 5⟩] :=
  runCalls_perm_same_kind _ _ _ (List.Perm.swap _ _ _) (Or.inl (by decide))

end BoxClaims2

section BoxClaims3

variable {Value : Type}

theorem contains_clip_iff [LinearOrder Value] (a b : TBoundingBox2 Value) (p : TVector2 Value) :
    (a.clip b).contains p ↔ a.contains p ∧ b.contains p := by
  simp only [TBoundingBox2.contains, TBoundingBox2.clip, cwise_min, cwise_max,
    std_min_eq_min, std_max_eq_max, max_le_iff, le_min_iff]
  tauto

/-- C3. Over a totally ordered scalar, for boxes `a` and `b` with `pmin <= pmax`
on both axes: a point lies in the closed box left by `a.clip(b)` iff it lies in
`a` and in `b`; when `a` and `b` have no common point, the box left by
`a.clip(b)` has `pmin > pmax` on the x axis or on the y axis. The two
preconditions are those of the claim; the proof holds without them. -/
theorem clip_is_intersection [LinearOrder Value] (a b : TBoundingBox2 Value)
    (_ha : a.valid) (_hb : b.valid) :
    (∀ p : TVector2 Value, (a.clip b).contains p ↔ a.contains p ∧ b.contains p) ∧
    ((¬ ∃ p : TVector2 Value, a.contains p ∧ b.contains p) →
      (a.clip b).pmax.x < (a.clip b).pmin.x ∨ (a.clip b).pmax.y < (a.clip b).pmin.y) := by
  refine ⟨contains_clip_iff a b, fun hno => ?_⟩
  by_contra hcon
  rw [not_or, not_lt, not_lt] at hcon
  exact hno ⟨(a.clip b).pmin, (contains_clip_iff a b _).mp
    ⟨le_refl _, hcon.1, le_refl _, hcon.2⟩⟩

/-- C3, at a concrete input: `a = [0,1]x[0,1]` and `b = [2,3]x[0,1]` are valid
and disjoint; `a.clip(b)` is `pmin = (2,0)`, `pmax = (1,1)`, with `pmin.x > pmax.x`. -/
theorem clip_is_intersection_witness :
    (⟨⟨0, 0⟩, ⟨1, 1⟩⟩ : TBoundingBox2 ℤ).valid ∧ (⟨⟨2, 0⟩, ⟨3, 1⟩⟩ : TBoundingBox2 ℤ).valid ∧
    (¬ ∃ p : TVector2 ℤ, (⟨⟨0, 0⟩, ⟨1, 1⟩⟩ : TBoundingBox2 ℤ).contains p ∧
      (⟨⟨2, 0⟩, ⟨3, 1⟩⟩ : TBoundingBox2 ℤ).contains p) ∧
    TBoundingBox2.clip (⟨⟨0, 0⟩, ⟨1, 1⟩⟩ : TBoundingBox2 ℤ) ⟨⟨2, 0⟩, ⟨3, 1⟩⟩
      = ⟨⟨2, 0⟩, ⟨1, 1⟩⟩ ∧
    ((1 : ℤ) < 2 ∨ (1 : ℤ) < 0) := by
  have ha : (⟨⟨0, 0⟩, ⟨1, 1⟩⟩ : TBoundingBox2 ℤ).valid := ⟨by decide, by decide⟩
  have hb : (⟨⟨2, 0⟩, ⟨3, 1⟩⟩ : TBoundingBox2 ℤ).valid := ⟨by decide, by decide⟩
  have hno : ¬ ∃ p : TVector2 ℤ, (⟨⟨0, 0⟩, ⟨1, 1⟩⟩ : TBoundingBox2 ℤ).contains p ∧
      (⟨⟨2, 0⟩, ⟨3, 1⟩⟩ : TBoundingBox2 ℤ).contains p := by
    rintro ⟨p, h1, h2⟩
    have h3 : p.x ≤ 1 := h1.2.1
    have h4 : (2 : ℤ) ≤ p.x := h2.1
    omega
  have e : TBoundingBox2.clip (⟨⟨0, 0⟩, ⟨1, 1⟩⟩ : TBoundingBox2 ℤ) ⟨⟨2, 0⟩, ⟨3, 1⟩⟩
      = ⟨⟨2, 0⟩, ⟨1, 1⟩⟩ := by decide
  have h := (clip_is_intersection (⟨⟨0, 0⟩, ⟨1, 1⟩⟩ : TBoundingBox2 ℤ) ⟨⟨2, 0⟩, ⟨3, 1⟩⟩
    ha hb).2 hno
  rw [e] at h
  exact ⟨ha, hb, hno, e, h⟩

/-- C4. Over a totally ordered scalar, `s.clip(a); s.clip(b)` and
`s.clip(b); s.clip(a)` leave `s` with the same `pmin` and `pmax`. -/
theorem clip_comm [LinearOrder Value] (s a b : TBoundingBox2 Value) :
    (s.clip a).clip b = (s.clip b).clip a := by
  simp [TBoundingBox2.clip, cwise_min, cwise_max, std_min_eq_min, std_max_eq_max,
    inf_right_comm, sup_right_comm]

theorem std_max_idem [Preorder Value] [DecidableRel (fun a b : Value => a < b)]
    (s a : Value) : std_max (std_max s a) a = std_max s a := by
  unfold std_max
  by_cases h : s < a
  · simp [h, lt_irrefl]
  · simp [h]

theorem std_min_idem [Preorder Value] [DecidableRel (fun a b : Value => a < b)]
    (s a : Value) : std_min (std_min s a) a = std_min s a := by
  unfold std_min
  by_cases h : a < s
  · simp [h, lt_irrefl]
  · simp [h]

/-- C5. For every box `s` and every box `a`, `s.clip(a)` applied twice leaves the
same `pmin` and `pmax` as applied once. The comparison `<` only has to be
irreflexive and transitive, which covers a scalar with incomparable values. -/
theorem clip_idempotent [Preorder Value] [DecidableRel (fun a b : Value => a < b)]
    (s a : TBoundingBox2 Value) : (s.clip a).clip a = s.clip a := by
  simp [TBoundingBox2.clip, cwise_min, cwise_max, std_max_idem, std_min_idem]

/-- C6. For a scalar type with a largest value `infinity()` and a smallest value
`-infinity()`: `b.clip(E)` with `E` the `reset()` box leaves `pmin = (+inf,+inf)`
and `pmax = (-inf,-inf)`, and `E.clip(b)` leaves `E` equal to the `reset()` box. -/
theorem clip_reset [LinearOrder Value] [NumericLimits Value] [Neg Value]
    (htop : ∀ v : Value, v ≤ NumericLimits.infinity)
    (hbot : ∀ v : Value, -NumericLimits.infinity ≤ v) (b : TBoundingBox2 Value) :
    (b.clip TBoundingBox2.reset).pmin = ⟨NumericLimits.infinity, NumericLimits.infinity⟩ ∧
    (b.clip TBoundingBox2.reset).pmax = ⟨-NumericLimits.infinity, -NumericLimits.infinity⟩ ∧
    (TBoundingBox2.reset : TBoundingBox2 Value).clip b = TBoundingBox2.reset := by
  simp [TBoundingBox2.clip, TBoundingBox2.reset, TVector2.ofValue, cwise_min, cwise_max,
    std_min_eq_min, std_max_eq_max, htop, hbot]

/-- C6, at a concrete input: over the extended rationals, the box `[0,1]x[0,1]`
clipped against the `reset()` box. -/
theorem clip_reset_witness :
    ((∀ v : ExtRat, v ≤ NumericLimits.infinity) ∧
      (∀ v : ExtRat, -NumericLimits.infinity ≤ v)) ∧
    TBoundingBox2.clip ⟨⟨.fin 0, .fin 0⟩, ⟨.fin 1, .fin 1⟩⟩ TBoundingBox2.reset
      = (⟨⟨.posInf, .posInf⟩, ⟨.negInf, .negInf⟩⟩ : TBoundingBox2 ExtRat) ∧
    TBoundingBox2.clip TBoundingBox2.reset ⟨⟨.fin 0, .fin 0⟩, ⟨.fin 1, .fin 1⟩⟩
      = (⟨⟨.posInf, .posInf⟩, ⟨.negInf, .negInf⟩⟩ : TBoundingBox2 ExtRat) := by
  have h := clip_reset ExtRat.le_infinity ExtRat.neg_infinity_le
    (⟨⟨.fin 0, .fin 0⟩, ⟨.fin 1, .fin 1⟩⟩ : TBoundingBox2 ExtRat)
  refine ⟨⟨ExtRat.le_infinity, ExtRat.neg_infinity_le⟩, ?_, h.2.2⟩
  have e : ∀ x : TBoundingBox2 ExtRat, x = ⟨x.pmin, x.pmax⟩ := fun x => rfl
  rw [e (TBoundingBox2.clip _ _), h.1, h.2.1]
  rfl

theorem TVector2.add_def [Add Value] (a b : TVector2 Value) :
    a + b = ⟨a.x + b.x, a.y + b.y⟩ := rfl

theorem TVector2.hmul_def [Mul Value] (a : TVector2 Value) (k : Value) :
    a * k = ⟨a.x * k, a.y * k⟩ := rfl

/-- C7. For a box over the rationals (a floating scalar in exact arithmetic, where
`Value(.5f)` is one half), `center()` is the arithmetic midpoint on each axis; the
box `pmin = (-1,1)`, `pmax = (1,3)` has center `(0,2)`. -/
theorem center_midpoint :
    (∀ (b : TBoundingBox2 ℚ) (i : Fin 2),
      b.center.get i = (b.pmin.get i + b.pmax.get i) / 2) ∧
    (⟨⟨-1, 1⟩, ⟨1, 3⟩⟩ : TBoundingBox2 ℚ).center = ⟨0, 2⟩ := by
  constructor
  · intro b i
    fin_cases i <;>
      simp [TBoundingBox2.center, TVector2.get, TVector2.add_def, TVector2.hmul_def,
        FromFloat.half, div_eq_mul_inv]
  · simp [TBoundingBox2.center, TVector2.add_def, TVector2.hmul_def, FromFloat.half]
    norm_num

end BoxClaims3

/-! ## The claims on `TMatrix3` -/

section MatrixClaims

variable {Value : Type}

theorem TMatrix3.mul_def [Add Value] [Mul Value] [Zero Value] [One Value]
    (A B : TMatrix3 Value) : A * B = TMatrix3.mulLoop A B TMatrix3.identity := rfl

theorem TMatrix3.mulLoop_eq [Add Value] [Mul Value] (A B ret : TMatrix3 Value) :
    TMatrix3.mulLoop A B ret =
      ⟨⟨(A.row 0).dot (B.col 0), (A.row 0).dot (B.col 1), (A.row 0).dot (B.col 2)⟩,
       ⟨(A.row 1).dot (B.col 0), (A.row 1).dot (B.col 1), (A.row 1).dot (B.col 2)⟩,
       ⟨(A.row 2).dot (B.col 0), (A.row 2).dot (B.col 1), (A.row 2).dot (B.col 2)⟩⟩ := by
  simp [TMatrix3.mulLoop, TMatrix3.set, TVector3.set]

/-- C8. For 3x3 matrices `A` and `B` over a commutative ring, every entry
`(r, c)` of `A * B` is `dot(A.row(r), B.col(c))`, which is
`A(r,0)*B(0,c) + A(r,1)*B(1,c) + A(r,2)*B(2,c)`; the loops give the same matrix
from any initial `ret`, so nothing of the default-constructed identity is left;
the product agrees with the matrix product of Mathlib. -/
theorem mul_entry [CommRing Value] (A B : TMatrix3 Value) :
    (∀ r c : Fin 3, (A * B).get r c = (A.row r).dot (B.col c) ∧
      (A.row r).dot (B.col c) =
        A.get r 0 * B.get 0 c + A.get r 1 * B.get 1 c + A.get r 2 * B.get 2 c) ∧
    (∀ ret : TMatrix3 Value, TMatrix3.mulLoop A B ret = A * B) ∧
    (A * B).toMatrix = A.toMatrix * B.toMatrix := by
  refine ⟨fun r c => ⟨?_, ?_⟩, fun ret => ?_, ?_⟩
  · rw [TMatrix3.mul_def, TMatrix3.mulLoop_eq]
    fin_cases r <;> fin_cases c <;> rfl
  · fin_cases r <;> fin_cases c <;> rfl
  · rw [TMatrix3.mul_def, TMatrix3.mulLoop_eq, TMatrix3.mulLoop_eq]
  · rw [TMatrix3.mul_def, TMatrix3.mulLoop_eq]
    ext i j
    fin_cases i <;> fin_cases j <;>
      simp [TMatrix3.toMatrix, Matrix.mul_apply, Fin.sum_univ_three, TMatrix3.get,
        TMatrix3.row, TVector3.get, TVector3.dot, TMatrix3.col]

/-- C9. Over a commutative ring, `identity() * M == M` and `M * identity() == M`
for every 3x3 matrix `M`. -/
theorem identity_mul_and_mul_identity [CommRing Value] (M : TMatrix3 Value) :
    TMatrix3.identity * M = M ∧ M * TMatrix3.identity = M := by
  obtain ⟨⟨a, b, c⟩, ⟨d, e, f⟩, ⟨g, h, i⟩⟩ := M
  constructor <;>
    simp [TMatrix3.mul_def, TMatrix3.mulLoop_eq, TMatrix3.identity, TMatrix3.diag,
      TMatrix3.ofScalars, TVector3.ofValue, TMatrix3.row, TMatrix3.col, TVector3.get,
      TVector3.dot]

/-- C10. For every 3x3 matrix `M` over a commutative ring, `determinant()` equals
the cofactor expansion along the first row, and it is the determinant of `M` as a
Mathlib matrix. -/
theorem determinant_cofactor [CommRing Value] (M : TMatrix3 Value) :
    M.determinant =
      M.get 0 0 * (M.get 1 1 * M.get 2 2 - M.get 1 2 * M.get 2 1) -
      M.get 0 1 * (M.get 1 0 * M.get 2 2 - M.get 1 2 * M.get 2 0) +
      M.get 0 2 * (M.get 1 0 * M.get 2 1 - M.get 1 1 * M.get 2 0) ∧
    M.determinant = M.toMatrix.det := by
  constructor
  · unfold TMatrix3.determinant
    ring
  · rw [Matrix.det_fin_three]
    simp only [TMatrix3.toMatrix, Matrix.of_apply]
    unfold TMatrix3.determinant
    ring

end MatrixClaims

/-! ## The claims on `TMatrix3`: inverse, transpose, named constructors -/

section MatrixClaims2

variable {Value : Type}

theorem TVector3.scale_def [Mul Value] (a : TVector3 Value) (k : Value) :
    a * k = ⟨a.x * k, a.y * k, a.z * k⟩ := rfl

theorem TMatrix3.identity_eq [Zero Value] [One Value] :
    (TMatrix3.identity : TMatrix3 Value) = ⟨⟨1, 0, 0⟩, ⟨0, 1, 0⟩, ⟨0, 0, 1⟩⟩ := rfl

/-- C11. For every 3x3 matrix `M` over a field with `determinant() != 0`,
`inverse()` is the adjugate of `M` divided by the determinant, and
`M * M.inverse() == identity()` and `M.inverse() * M == identity()`. -/
theorem inverse_two_sided [Field Value] (M : TMatrix3 Value) (hdet : M.determinant ≠ 0) :
    M.inverse.toMatrix = (M.determinant)⁻¹ • M.toMatrix.adjugate ∧
    M * M.inverse = TMatrix3.identity ∧ M.inverse * M = TMatrix3.identity := by
  obtain ⟨⟨a, b, c⟩, ⟨d, e, f⟩, ⟨g, h, i⟩⟩ := M
  have hd : a * (e * i - h * f) - d * (b * i - h * c) + g * (b * f - e * c) ≠ 0 := hdet
  refine ⟨?_, ?_, ?_⟩
  · rw [Matrix.adjugate_fin_three]
    ext r s
    fin_cases r <;> fin_cases s <;>
      simp only [TMatrix3.toMatrix, TMatrix3.inverse, TMatrix3.scalarMul, TMatrix3.mulScalar,
        TMatrix3.determinant, TMatrix3.get, TMatrix3.row, TVector3.get, TVector3.scale_def,
        Matrix.of_apply, Matrix.smul_apply, smul_eq_mul, Matrix.cons_val', Matrix.cons_val_zero,
        Matrix.cons_val_one, Matrix.cons_val_two, Matrix.head_cons, Matrix.tail_cons,
        Matrix.empty_val', Matrix.cons_val_fin_one, Fin.zero_eta, Fin.mk_one, Fin.reduceFinMk,
        Matrix.head_fin_const] <;>
      ring
  · rw [TMatrix3.mul_def, TMatrix3.mulLoop_eq, TMatrix3.identity_eq]
    simp only [TMatrix3.inverse, TMatrix3.scalarMul, TMatrix3.mulScalar,
      TMatrix3.determinant, TMatrix3.get, TMatrix3.row, TMatrix3.col, TVector3.get,
      TVector3.scale_def, TVector3.dot, TMatrix3.mk.injEq, TVector3.mk.injEq]
    refine ⟨⟨?_, ?_, ?_⟩, ⟨?_, ?_, ?_⟩, ⟨?_, ?_, ?_⟩⟩ <;> field_simp <;> ring
  · rw [TMatrix3.mul_def, TMatrix3.mulLoop_eq, TMatrix3.identity_eq]
    simp only [TMatrix3.inverse, TMatrix3.scalarMul, TMatrix3.mulScalar,
      TMatrix3.determinant, TMatrix3.get, TMatrix3.row, TMatrix3.col, TVector3.get,
      TVector3.scale_def, TVector3.dot, TMatrix3.mk.injEq, TVector3.mk.injEq]
    refine ⟨⟨?_, ?_, ?_⟩, ⟨?_, ?_, ?_⟩, ⟨?_, ?_, ?_⟩⟩ <;> field_simp <;> ring

/-- C11, at a concrete input: the rational matrix with rows `(1,2,3)`, `(0,1,4)`,
`(5,6,0)` has determinant `1`; its `inverse()` has rows `(-24,18,5)`,
`(20,-15,-4)`, `(-5,4,1)` and both products are `identity()`. -/
theorem inverse_two_sided_witness :
    (⟨⟨1, 2, 3⟩, ⟨0, 1, 4⟩, ⟨5, 6, 0⟩⟩ : TMatrix3 ℚ).determinant ≠ 0 ∧
    (⟨⟨1, 2, 3⟩, ⟨0, 1, 4⟩, ⟨5, 6, 0⟩⟩ : TMatrix3 ℚ).inverse
      = ⟨⟨-24, 18, 5⟩, ⟨20, -15, -4⟩, ⟨-5, 4, 1⟩⟩ ∧
    (⟨⟨1, 2, 3⟩, ⟨0, 1, 4⟩, ⟨5, 6, 0⟩⟩ : TMatrix3 ℚ)
      * (⟨⟨1, 2, 3⟩, ⟨0, 1, 4⟩, ⟨5, 6, 0⟩⟩ : TMatrix3 ℚ).inverse = TMatrix3.identity ∧
    (⟨⟨1, 2, 3⟩, ⟨0, 1, 4⟩, ⟨5, 6, 0⟩⟩ : TMatrix3 ℚ).inverse
      * (⟨⟨1, 2, 3⟩, ⟨0, 1, 4⟩, ⟨5, 6, 0⟩⟩ : TMatrix3 ℚ) = TMatrix3.identity := by
  have hdet : (⟨⟨1, 2, 3⟩, ⟨0, 1, 4⟩, ⟨5, 6, 0⟩⟩ : TMatrix3 ℚ).determinant ≠ 0 := by
    norm_num [TMatrix3.determinant, TMatrix3.get, TMatrix3.row, TVector3.get]
  have h := inverse_two_sided (⟨⟨1, 2, 3⟩, ⟨0, 1, 4⟩, ⟨5, 6, 0⟩⟩ : TMatrix3 ℚ) hdet
  refine ⟨hdet, ?_, h.2.1, h.2.2⟩
  norm_num [TMatrix3.inverse, TMatrix3.scalarMul, TMatrix3.mulScalar, TMatrix3.determinant,
    TMatrix3.get, TMatrix3.row, TVector3.get, TVector3.scale_def]

/-- C12. For every 3x3 matrix `M` and all `r`, `c`, `M.transpose()(r,c) = M(c,r)`,
and `M.transpose().transpose() == M`. -/
theorem transpose_involution (M : TMatrix3 Value) :
    (∀ r c : Fin 3, M.transpose.get r c = M.get c r) ∧ M.transpose.transpose = M := by
  refine ⟨fun r c => ?_, rfl⟩
  fin_cases r <;> fin_cases c <;> rfl

/-- C13, on the code. The constructor `ones()` returns `constant(0)`: over the
rationals every entry of `ones()` is `0`, and `ones()` differs from `constant(1)`. -/
theorem ones_is_all_zero :
    (TMatrix3.ones : TMatrix3 ℚ) = TMatrix3.constant 0 ∧
    (∀ r c : Fin 3, (TMatrix3.ones : TMatrix3 ℚ).get r c = 0) ∧
    (TMatrix3.ones : TMatrix3 ℚ) ≠ TMatrix3.constant 1 := by
  refine ⟨rfl, fun r c => ?_, by decide⟩
  fin_cases r <;> fin_cases c <;> rfl

end MatrixClaims2

/-! ## The comparison operators of `TMatrix3` -/

section LexLemmas

variable {Value : Type} [LinearOrder Value]

theorem lexLt_irrefl (as : List Value) : lexLt as as = false := by
  induction as with
  | nil => rfl
  | cons a as ih => simp [lexLt, ih]

theorem lexLt_trans (as bs cs : List Value) (h1 : lexLt as bs = true)
    (h2 : lexLt bs cs = true) : lexLt as cs = true := by
  induction as generalizing bs cs with
  | nil => simp [lexLt] at h1
  | cons a as ih =>
    cases bs with
    | nil => simp [lexLt] at h1
    | cons b bs =>
      cases cs with
      | nil => simp [lexLt] at h2
      | cons c cs =>
        simp only [lexLt] at h1 h2 ⊢
        rcases lt_trichotomy a b with hab | hab | hab
        · rcases lt_trichotomy b c with hbc | hbc | hbc
          · simp [lt_trans hab hbc]
          · simp [hbc ▸ hab]
          · simp [hbc, not_lt_of_lt hbc] at h2
        · subst hab
          rcases lt_trichotomy a c with hac | hac | hac
          · simp [hac]
          · subst hac
            simp only [lt_self_iff_false, if_false] at h1 h2 ⊢
            exact ih bs cs h1 h2
          · simp [hac, not_lt_of_lt hac] at h2
        · simp [hab, not_lt_of_lt hab] at h1

theorem lexLt_total (as bs : List Value) (hlen : as.length = bs.length) :
    lexLt as bs = true ∨ as = bs ∨ lexLt bs as = true := by
  induction as generalizing bs with
  | nil =>
    cases bs with
    | nil => exact Or.inr (Or.inl rfl)
    | cons b bs => simp at hlen
  | cons a as ih =>
    cases bs with
    | nil => simp at hlen
    | cons b bs =>
      simp only [List.length_cons, add_left_inj] at hlen
      simp only [lexLt]
      rcases lt_trichotomy a b with hab | hab | hab
      · simp [hab]
      · subst hab
        simpa using ih bs hlen
      · simp [hab]

theorem lexLt_iff_first_diff (as bs : List Value) :
    lexLt as bs = true ↔
      ∃ k : ℕ, (∀ j, j < k → as[j]? = bs[j]?) ∧
        ∃ a b, as[k]? = some a ∧ bs[k]? = some b ∧ a < b := by
  induction as generalizing bs with
  | nil => simp [lexLt]
  | cons a as ih =>
    cases bs with
    | nil => simp [lexLt]
    | cons b bs =>
      simp only [lexLt]
      rcases lt_trichotomy a b with hab | hab | hab
      · simp only [hab, if_true, true_iff]
        exact ⟨0, fun j hj => absurd hj (Nat.not_lt_zero j), a, b, by simp, by simp, hab⟩
      · subst hab
        simp only [lt_self_iff_false, if_false]
        rw [ih bs]
        constructor
        · rintro ⟨k, hk, x, y, hx, hy, hxy⟩
          refine ⟨k + 1, fun j hj => ?_, x, y, by simpa using hx, by simpa using hy, hxy⟩
          cases j with
          | zero => simp
          | succ j => simpa using hk j (by omega)
        · rintro ⟨k, hk, x, y, hx, hy, hxy⟩
          cases k with
          | zero =>
            simp only [List.getElem?_cons_zero, Option.some.injEq] at hx hy
            subst hx; subst hy
            exact absurd hxy (lt_irrefl _)
          | succ k =>
            refine ⟨k, fun j hj => ?_, x, y, by simpa using hx, by simpa using hy, hxy⟩
            simpa using hk (j + 1) (by omega)
      · simp only [not_lt_of_lt hab, hab, if_true, if_false, Bool.false_eq_true, false_iff]
        rintro ⟨k, hk, x, y, hx, hy, hxy⟩
        cases k with
        | zero =>
          simp only [List.getElem?_cons_zero, Option.some.injEq] at hx hy
          subst hx; subst hy
          exact absurd hxy (not_lt_of_lt hab)
        | succ k =>
          have h0 := hk 0 (by omega)
          simp only [List.getElem?_cons_zero, Option.some.injEq] at h0
          exact absurd hab (h0 ▸ lt_irrefl _)

end LexLemmas

section MatrixOrder

variable {Value : Type}

theorem TMatrix3.toList_getElem? (m : TMatrix3 Value) (k : Fin 9) :
    m.toList[k.val]? = some (m.elem k) := by
  fin_cases k <;> rfl

theorem TMatrix3.toList_injective (A B : TMatrix3 Value) (h : A.toList = B.toList) : A = B := by
  obtain ⟨⟨a1, a2, a3⟩, ⟨a4, a5, a6⟩, ⟨a7, a8, a9⟩⟩ := A
  obtain ⟨⟨b1, b2, b3⟩, ⟨b4, b5, b6⟩, ⟨b7, b8, b9⟩⟩ := B
  simp only [TMatrix3.toList, TMatrix3.get, TMatrix3.row, TVector3.get, List.cons.injEq,
    and_true] at h
  obtain ⟨h1, h2, h3, h4, h5, h6, h7, h8, h9⟩ := h
  subst h1 h2 h3 h4 h5 h6 h7 h8 h9
  rfl

theorem TMatrix3.loopOuter_flat (body : Fin 3 → Fin 3 → Option Bool) (after : Bool) :
    TMatrix3.loopOuter body after [0, 1, 2] =
      (List.findSome? id [body 0 0, body 0 1, body 0 2, body 1 0, body 1 1, body 1 2,
        body 2 0, body 2 1, body 2 2]).getD after := by
  simp only [TMatrix3.loopOuter, TMatrix3.loopInner]
  generalize body 0 0 = o1
  generalize body 0 1 = o2
  generalize body 0 2 = o3
  generalize body 1 0 = o4
  generalize body 1 1 = o5
  generalize body 1 2 = o6
  generalize body 2 0 = o7
  generalize body 2 1 = o8
  generalize body 2 2 = o9
  cases o1 <;> cases o2 <;> cases o3 <;> cases o4 <;> cases o5 <;> cases o6 <;> cases o7 <;>
    cases o8 <;> cases o9 <;> rfl

theorem lexLt_eq_findSome [LinearOrder Value] (as bs : List Value) :
    lexLt as bs =
      (List.findSome? id (List.zipWith
        (fun a b => if a < b then some true else if a > b then some false else none)
        as bs)).getD false := by
  induction as generalizing bs with
  | nil => cases bs <;> rfl
  | cons a as ih =>
    cases bs with
    | nil => rfl
    | cons b bs =>
      simp only [lexLt, List.zipWith_cons_cons, List.findSome?_cons, gt_iff_lt, id_eq]
      split_ifs
      · rfl
      · rfl
      · simpa using ih bs

theorem TMatrix3.op_lt_eq_lexLt [LinearOrder Value] (A B : TMatrix3 Value) :
    A.op_lt B = lexLt A.toList B.toList := by
  rw [lexLt_eq_findSome, TMatrix3.op_lt, TMatrix3.loopOuter_flat]
  rfl

theorem eq_findSome_iff [DecidableEq Value] (as bs : List Value)
    (hlen : as.length = bs.length) :
    (List.findSome? id (List.zipWith
      (fun a b => if a ≠ b then some false else none) as bs)).getD true = true ↔ as = bs := by
  induction as generalizing bs with
  | nil =>
    cases bs with
    | nil => simp
    | cons b bs => simp at hlen
  | cons a as ih =>
    cases bs with
    | nil => simp at hlen
    | cons b bs =>
      simp only [List.length_cons, add_left_inj] at hlen
      simp only [List.zipWith_cons_cons, List.findSome?_cons, id_eq, List.cons.injEq]
      by_cases hab : a = b
      · simpa [hab] using ih bs hlen
      · simp [hab]

theorem ne_findSome_eq_not [DecidableEq Value] (as bs : List Value) :
    (List.findSome? id (List.zipWith
      (fun a b => if a ≠ b then some true else none) as bs)).getD false =
    !(List.findSome? id (List.zipWith
      (fun a b => if a ≠ b then some false else none) as bs)).getD true := by
  induction as generalizing bs with
  | nil => cases bs <;> rfl
  | cons a as ih =>
    cases bs with
    | nil => rfl
    | cons b bs =>
      simp only [List.zipWith_cons_cons, List.findSome?_cons, id_eq]
      by_cases hab : a = b
      · simpa [hab] using ih bs
      · simp [hab]

theorem TMatrix3.op_eq_iff [DecidableEq Value] (A B : TMatrix3 Value) :
    A.op_eq B = true ↔ A = B := by
  rw [TMatrix3.op_eq, TMatrix3.loopOuter_flat]
  have h := eq_findSome_iff A.toList B.toList rfl
  exact h.trans ⟨TMatrix3.toList_injective A B, fun e => e ▸ rfl⟩

theorem TMatrix3.op_ne_eq_not_op_eq [DecidableEq Value] (A B : TMatrix3 Value) :
    A.op_ne B = !A.op_eq B := by
  rw [TMatrix3.op_ne, TMatrix3.op_eq, TMatrix3.loopOuter_flat, TMatrix3.loopOuter_flat]
  exact ne_findSome_eq_not A.toList B.toList

end MatrixOrder

section MatrixOrderClaims

variable {Value : Type}

/-- C14. Over a totally ordered scalar, `A < B` holds iff there is a position `k`
of the row-major order such that `A` and `B` agree at every position before `k`
and the element of `A` at `k` is less than the element of `B` at `k`. -/
theorem op_lt_lexicographic [LinearOrder Value] (A B : TMatrix3 Value) :
    A.op_lt B = true ↔
      ∃ k : Fin 9, (∀ k' : Fin 9, k' < k → A.elem k' = B.elem k') ∧ A.elem k < B.elem k := by
  rw [TMatrix3.op_lt_eq_lexLt, lexLt_iff_first_diff]
  constructor
  · rintro ⟨k, hk, a, b, ha, hb, hab⟩
    have hk9 : k < 9 := by
      by_contra hge
      have : A.toList[k]? = none := List.getElem?_eq_none (by simpa [TMatrix3.toList] using hge)
      rw [this] at ha
      exact Option.noConfusion ha
    have ha2 := TMatrix3.toList_getElem? A ⟨k, hk9⟩
    have hb2 := TMatrix3.toList_getElem? B ⟨k, hk9⟩
    simp only at ha2 hb2
    rw [ha] at ha2
    rw [hb] at hb2
    refine ⟨⟨k, hk9⟩, fun k' hk' => ?_, ?_⟩
    · have h := hk k'.val hk'
      rw [TMatrix3.toList_getElem? A k', TMatrix3.toList_getElem? B k'] at h
      exact Option.some.inj h
    · rw [← Option.some.inj ha2, ← Option.some.inj hb2]
      exact hab
  · rintro ⟨k, hk, hlt⟩
    refine ⟨k.val, fun j hj => ?_, A.elem k, B.elem k, TMatrix3.toList_getElem? A k,
      TMatrix3.toList_getElem? B k, hlt⟩
    have hj9 : j < 9 := lt_trans hj k.isLt
    have h := hk ⟨j, hj9⟩ hj
    have hA := TMatrix3.toList_getElem? A ⟨j, hj9⟩
    have hB := TMatrix3.toList_getElem? B ⟨j, hj9⟩
    simp only at hA hB
    rw [hA, hB, h]

/-- C20. Over a totally ordered scalar, `operator<` is irreflexive and transitive,
exactly one of `A < B`, `A == B`, `B < A` holds, `A == B` holds iff the two
matrices have the same nine elements, and `A != B` is the negation of `A == B`. -/
theorem op_lt_strict_total_order [LinearOrder Value] (A B C : TMatrix3 Value) :
    A.op_lt A = false ∧
    (A.op_lt B = true → B.op_lt C = true → A.op_lt C = true) ∧
    ((A.op_lt B = true ∧ A.op_eq B = false ∧ B.op_lt A = false) ∨
      (A.op_lt B = false ∧ A.op_eq B = true ∧ B.op_lt A = false) ∨
      (A.op_lt B = false ∧ A.op_eq B = false ∧ B.op_lt A = true)) ∧
    (A.op_eq B = true ↔ A = B) ∧
    A.op_ne B = !A.op_eq B := by
  have hirr : ∀ M : TMatrix3 Value, M.op_lt M = false := fun M => by
    rw [TMatrix3.op_lt_eq_lexLt]
    exact lexLt_irrefl _
  have htrans : ∀ X Y Z : TMatrix3 Value, X.op_lt Y = true → Y.op_lt Z = true →
      X.op_lt Z = true := fun X Y Z h1 h2 => by
    rw [TMatrix3.op_lt_eq_lexLt] at h1 h2 ⊢
    exact lexLt_trans _ _ _ h1 h2
  have hasymm : A.op_lt B = true → B.op_lt A = true → False := fun h1 h2 => by
    have h3 := htrans A B A h1 h2
    rw [hirr A] at h3
    exact Bool.noConfusion h3
  refine ⟨hirr A, htrans A B C, ?_, TMatrix3.op_eq_iff A B, TMatrix3.op_ne_eq_not_op_eq A B⟩
  have htot := lexLt_total A.toList B.toList rfl
  rw [← TMatrix3.op_lt_eq_lexLt, ← TMatrix3.op_lt_eq_lexLt] at htot
  by_cases heq : A = B
  · subst heq
    exact Or.inr (Or.inl ⟨hirr A, (TMatrix3.op_eq_iff A A).mpr rfl, hirr A⟩)
  · have hne : A.op_eq B = false := by
      rw [← Bool.not_eq_true]
      exact fun h => heq ((TMatrix3.op_eq_iff A B).mp h)
    rcases htot with h | h | h
    · refine Or.inl ⟨h, hne, ?_⟩
      rw [← Bool.not_eq_true]
      exact fun h2 => hasymm h h2
    · exact absurd (TMatrix3.toList_injective A B h) heq
    · refine Or.inr (Or.inr ⟨?_, hne, h⟩)
      rw [← Bool.not_eq_true]
      exact fun h2 => hasymm h2 h

/-- C20, at a concrete input: for the integer matrices `A` with all entries `0`,
`B` with `B(1,1) = 1` and `C` with `C(0,2) = 1` as their only non-zero entries,
`A < B`, `B < C` and `A < C`. -/
theorem op_lt_strict_total_order_witness :
    (TMatrix3.constant (0 : ℤ)).op_lt ⟨⟨0, 0, 0⟩, ⟨0, 1, 0⟩, ⟨0, 0, 0⟩⟩ = true ∧
    (⟨⟨0, 0, 0⟩, ⟨0, 1, 0⟩, ⟨0, 0, 0⟩⟩ : TMatrix3 ℤ).op_lt ⟨⟨0, 0, 1⟩, ⟨0, 0, 0⟩, ⟨0, 0, 0⟩⟩
      = true ∧
    (TMatrix3.constant (0 : ℤ)).op_lt ⟨⟨0, 0, 1⟩, ⟨0, 0, 0⟩, ⟨0, 0, 0⟩⟩ = true := by
  have h1 : (TMatrix3.constant (0 : ℤ)).op_lt ⟨⟨0, 0, 0⟩, ⟨0, 1, 0⟩, ⟨0, 0, 0⟩⟩ = true := by
    decide
  have h2 : (⟨⟨0, 0, 0⟩, ⟨0, 1, 0⟩, ⟨0, 0, 0⟩⟩ : TMatrix3 ℤ).op_lt
      ⟨⟨0, 0, 1⟩, ⟨0, 0, 0⟩, ⟨0, 0, 0⟩⟩ = true := by decide
  exact ⟨h1, h2, (op_lt_strict_total_order _ _ _).2.1 h1 h2⟩

end MatrixOrderClaims



/-! ## The claims on the operators of `TVector2` and on the `int` instantiation -/

namespace CInt

theorem le_iff_val (a b : CInt) : a ≤ b ↔ a.val ≤ b.val := Iff.rfl

theorem wrap_val_of_range (z : ℤ) (h1 : -2147483648 ≤ z) (h2 : z ≤ 2147483647) :
    (wrap z).val = z := by
  show (z + 2147483648) % 4294967296 - 2147483648 = z
  omega

theorem zero_val : (0 : CInt).val = 0 := rfl

theorem mul_zero_eq (a : CInt) : a * 0 = 0 := by
  show wrap (a.val * (0 : CInt).val) = 0
  rw [zero_val, Int.mul_zero]
  rfl

theorem ofFloat_half : ofFloat (1 / 2) = 0 := by
  have h : ⌊(1 / 2 : ℚ)⌋ = 0 := by norm_num
  have h0 : (0 : ℚ) ≤ 1 / 2 := by norm_num
  unfold ofFloat
  rw [if_pos h0, h]
  rfl

theorem ofFloat_one : ofFloat 1 = 1 := by
  have h : ⌊(1 : ℚ)⌋ = 1 := by norm_num
  have h0 : (0 : ℚ) ≤ 1 := by norm_num
  unfold ofFloat
  rw [if_pos h0, h]
  rfl

theorem half_eq_zero : (FromFloat.half : CInt) = 0 := ofFloat_half

end CInt

section VectorClaims

variable {Value : Type}

/-- C15 as stated fails for a scalar operand whose type differs from `Value`: for
the `int` vector `v = (2,2)` and the floating scalar `w = 0.5`, `v *= w` converts
`w` to `int` first and leaves `(0,0)`, while `v * w` multiplies in the floating
type and converts the products, giving `(1,1)`. -/
theorem inplace_mixed_scalar_counterexample :
    ¬ ∀ (v : TVector2 CInt) (w : ℚ),
      v.mulAssignScalar (ScalarCast.cast w) = v.mulScalar w := by
  intro h
  have h1 := congrArg TVector2.x (h ⟨2, 2⟩ (1 / 2))
  have e1 : ((⟨2, 2⟩ : TVector2 CInt).mulAssignScalar (ScalarCast.cast (1 / 2 : ℚ))).x = 0 := by
    show (2 : CInt) * CInt.ofFloat (1 / 2) = 0
    rw [CInt.ofFloat_half]
    rfl
  have e2 : ((⟨2, 2⟩ : TVector2 CInt).mulScalar (1 / 2 : ℚ)).x = 1 := by
    show CInt.ofFloat (((2 : CInt).val : ℚ) * (1 / 2)) = 1
    have hv : (2 : CInt).val = 2 := rfl
    rw [hv]
    norm_num
    exact CInt.ofFloat_one
  rw [e1, e2] at h1
  exact absurd h1 (by decide)

/-- C15, amended. For every vector `v`, every vector `w` of the same type and
every scalar `k` of type `Value`, and for each of `+`, `-`, `*`, `/`: the receiver
after `v op= w` (after `v op= k`) equals the value of `v op w` (of `v op k`). -/
theorem inplace_eq_allocating [Add Value] [Sub Value] [Mul Value] [Div Value]
    (v w : TVector2 Value) (k : Value) :
    (v.addAssign w = v + w ∧ v.subAssign w = v - w ∧
      v.mulAssign w = v * w ∧ v.divAssign w = v / w) ∧
    (v.addAssignScalar k = v.addScalar k ∧ v.subAssignScalar k = v.subScalar k ∧
      v.mulAssignScalar k = v.mulScalar k ∧ v.divAssignScalar k = v.divScalar k) :=
  ⟨⟨rfl, rfl, rfl, rfl⟩, ⟨rfl, rfl, rfl, rfl⟩⟩

/-- C16 as stated fails for `Vector2i`: for `v = (46341, 0)` the product
`46341 * 46341 = 2147488281` exceeds the largest `int` and `squared_norm()`
is `-2147479015`. -/
theorem squared_norm_int_counterexample :
    ¬ ∀ v : TVector2 CInt, 0 ≤ v.squared_norm := by
  intro h
  exact absurd (h ⟨46341, 0⟩) (by decide)

theorem CInt.squared_norm_val (w : TVector2 CInt)
    (hw : w.x.val * w.x.val + w.y.val * w.y.val ≤ 2147483647) :
    w.squared_norm.val = w.x.val * w.x.val + w.y.val * w.y.val := by
  have hx : 0 ≤ w.x.val * w.x.val := mul_self_nonneg _
  have hy : 0 ≤ w.y.val * w.y.val := mul_self_nonneg _
  show (CInt.wrap ((CInt.wrap (w.x.val * w.x.val)).val
    + (CInt.wrap (w.y.val * w.y.val)).val)).val = _
  rw [CInt.wrap_val_of_range (w.x.val * w.x.val) (by omega) (by omega),
    CInt.wrap_val_of_range (w.y.val * w.y.val) (by omega) (by omega),
    CInt.wrap_val_of_range _ (by omega) (by omega)]

/-- C16, amended. In exact arithmetic (an ordered ring) `squared_norm(v)` is
`x*x + y*y >= 0` for every `v`; for a `Vector2i` `w` whose exact `x*x + y*y` does
not exceed the largest `int`, `squared_norm(w)` is that value and is `>= 0`. -/
theorem squared_norm_nonneg {K : Type} [LinearOrderedRing K] (v : TVector2 K)
    (w : TVector2 CInt) (hw : w.x.val * w.x.val + w.y.val * w.y.val ≤ 2147483647) :
    (v.squared_norm = v.x * v.x + v.y * v.y ∧ 0 ≤ v.squared_norm) ∧
    (w.squared_norm.val = w.x.val * w.x.val + w.y.val * w.y.val ∧ 0 ≤ w.squared_norm) := by
  refine ⟨⟨rfl, add_nonneg (mul_self_nonneg _) (mul_self_nonneg _)⟩,
    CInt.squared_norm_val w hw, ?_⟩
  rw [CInt.le_iff_val, CInt.squared_norm_val w hw, CInt.zero_val]
  exact add_nonneg (mul_self_nonneg _) (mul_self_nonneg _)

/-- C16 amended, at a concrete input: `squared_norm((3,4)) = 25`, over the
rationals and over `int`. -/
theorem squared_norm_nonneg_witness :
    (⟨3, 4⟩ : TVector2 CInt).x.val * (⟨3, 4⟩ : TVector2 CInt).x.val
      + (⟨3, 4⟩ : TVector2 CInt).y.val * (⟨3, 4⟩ : TVector2 CInt).y.val ≤ 2147483647 ∧
    (⟨3, 4⟩ : TVector2 ℚ).squared_norm = 25 ∧ (0 : ℚ) ≤ (⟨3, 4⟩ : TVector2 ℚ).squared_norm ∧
    (⟨3, 4⟩ : TVector2 CInt).squared_norm = 25 ∧
    (0 : CInt) ≤ (⟨3, 4⟩ : TVector2 CInt).squared_norm := by
  have hw : (⟨3, 4⟩ : TVector2 CInt).x.val * (⟨3, 4⟩ : TVector2 CInt).x.val
      + (⟨3, 4⟩ : TVector2 CInt).y.val * (⟨3, 4⟩ : TVector2 CInt).y.val ≤ 2147483647 := by
    decide
  have h := squared_norm_nonneg (⟨3, 4⟩ : TVector2 ℚ) (⟨3, 4⟩ : TVector2 CInt) hw
  refine ⟨hw, ?_, h.1.2, by decide, h.2.2⟩
  rw [h.1.1]
  norm_num

/-- C17. For all vectors `a` and `b` over a scalar with a commutative
multiplication, `dot(a, b) == dot(b, a)`; this holds in exact arithmetic and for
the wrapping 32-bit `int`. -/
theorem dot_comm [Add Value] [CommMagma Value] (a b : TVector2 Value) :
    a.dot b = b.dot a ∧
    (∀ c d : TVector2 ℚ, c.dot d = d.dot c) ∧
    (∀ c d : TVector2 CInt, c.dot d = d.dot c) := by
  have key : ∀ {V : Type} [Add V] [CommMagma V] (c d : TVector2 V), c.dot d = d.dot c := by
    intro V _ _ c d
    unfold TVector2.dot
    rw [mul_comm c.x d.x, mul_comm c.y d.y]
  exact ⟨key a b, fun c d => key c d, fun c d => key c d⟩

/-- C18. For `BoundingBox2i`, `reset()` sets `pmin = pmax = (0,0)`; after
`reset()` and `expand(p)` the box is `pmin = min((0,0), p)`, `pmax = max((0,0), p)`
component-wise, it contains the origin, and it is the degenerate box at `p` iff
`p = (0,0)`. -/
theorem reset_int_box :
    (TBoundingBox2.reset : TBoundingBox2 CInt) = ⟨⟨0, 0⟩, ⟨0, 0⟩⟩ ∧
    ∀ p : TVector2 CInt,
      (TBoundingBox2.reset.expand p).pmin = ⟨min 0 p.x, min 0 p.y⟩ ∧
      (TBoundingBox2.reset.expand p).pmax = ⟨max 0 p.x, max 0 p.y⟩ ∧
      (TBoundingBox2.reset.expand p).contains ⟨0, 0⟩ ∧
      (TBoundingBox2.reset.expand p = TBoundingBox2.ofPoint p ↔ p = ⟨0, 0⟩) := by
  have hr : (TBoundingBox2.reset : TBoundingBox2 CInt) = ⟨⟨0, 0⟩, ⟨0, 0⟩⟩ := by decide
  refine ⟨hr, fun p => ?_⟩
  obtain ⟨px, py⟩ := p
  rw [hr]
  simp only [TBoundingBox2.expand, cwise_min, cwise_max, std_min_eq_min, std_max_eq_max,
    TBoundingBox2.contains, TBoundingBox2.ofPoint, TBoundingBox2.mk.injEq, TVector2.mk.injEq]
  refine ⟨trivial, trivial, ⟨min_le_left _ _, le_max_left _ _, min_le_left _ _,
    le_max_left _ _⟩, ?_⟩
  constructor
  · rintro ⟨⟨h1, h2⟩, h3, h4⟩
    exact ⟨le_antisymm (min_eq_right_iff.mp h1) (max_eq_right_iff.mp h3),
      le_antisymm (min_eq_right_iff.mp h2) (max_eq_right_iff.mp h4)⟩
  · rintro ⟨rfl, rfl⟩
    simp

/-- C19. For `BoundingBox2i`, `Value(.5f)` is `0` and `center()` returns `(0,0)`
for every box; in particular for `pmin = (2,2)`, `pmax = (4,4)`. -/
theorem center_int_is_origin :
    (FromFloat.half : CInt) = 0 ∧
    (∀ b : TBoundingBox2 CInt, b.center = ⟨0, 0⟩) ∧
    (⟨⟨2, 2⟩, ⟨4, 4⟩⟩ : TBoundingBox2 CInt).center = ⟨0, 0⟩ := by
  have hall : ∀ b : TBoundingBox2 CInt, b.center = ⟨0, 0⟩ := by
    intro b
    simp only [TBoundingBox2.center, TVector2.hmul_def, CInt.half_eq_zero, CInt.mul_zero_eq]
  exact ⟨CInt.half_eq_zero, hall, hall _⟩

end VectorClaims


end misaki.math
